import Mathlib

/-!
Verification of the PortfolioAnalytics2 trade-generation system.

The repository ships two source files, `portfolio_trades/cli.py` and
`portfolio_trades/report_pdf.py`.  Those two files are embedded here
directly.  The core engine module (`portfolio_trades/engine.py`, the
function `build_trades_and_afterholdings`) and the loaders are not part
of the available sources; the engine is therefore modelled from the
specification (sections 3, 4 and 7 of spec.md), with each such
definition marked `Modelled from the spec:`.

Numbers are embedded as exact rationals (`ℚ`); machine-float rounding is
out of scope of this shallow embedding.
-/

set_option maxRecDepth 100000

namespace PortfolioAnalytics

/-- Trade direction, the `Action` column of a transaction row. -/
inductive Action where
  | BUY
  | SELL
deriving DecidableEq

/-- One row of the holdings table:
{account, tax_status, identifier, sleeve, shares, price, average_cost}. -/
structure Holding where
  account : String
  taxStatus : String
  identifier : String
  sleeve : String
  shares : ℚ
  price : ℚ
  averageCost : ℚ
deriving DecidableEq

/-- One row of the transaction table produced by the engine:
{account, tax_status, identifier, sleeve, action, shares_delta, price,
average_cost (pre-trade), delta_dollars, capital_gain}. -/
structure Transaction where
  account : String
  taxStatus : String
  identifier : String
  sleeve : String
  action : Action
  sharesDelta : ℚ
  price : ℚ
  averageCost : ℚ
  deltaDollars : ℚ
  capitalGain : ℚ
deriving DecidableEq

/-- The string rendered in the `Action` column. -/
def actionLabel : Action → String
  | .BUY => "BUY"
  | .SELL => "SELL"

/-! ### Lexicographic string comparison

`pandas.sort_values` on string columns orders rows by code-point
lexicographic comparison of the cell values.  `String.lt` of Lean core
does not reduce in the kernel, so the same order is defined here
structurally on the underlying character lists. -/

/-- Code-point lexicographic strict order on character lists. -/
def charListLt : List Char → List Char → Bool
  | [], [] => false
  | [], _ :: _ => true
  | _ :: _, [] => false
  | c :: cs, d :: ds => if c = d then charListLt cs ds else decide (c < d)

/-- Code-point lexicographic strict order on strings. -/
def strLt (s t : String) : Bool := charListLt s.data t.data

/-- Lexicographic non-strict order on equal-length string tuples
(encoded as lists), as used by `sort_values` on several key columns. -/
def keyLe : List String → List String → Bool
  | [], _ => true
  | _ :: _, [] => false
  | x :: xs, y :: ys => if x = y then keyLe xs ys else strLt x y

/-- The sort key of `report_pdf.render_pdf` and of the engine's output
ordering: `(Account, Action, Sleeve, Identifier)`. -/
def txKey (t : Transaction) : List String :=
  [t.account, actionLabel t.action, t.sleeve, t.identifier]

/-- Row order by the key `(Account, Action, Sleeve, Identifier)`. -/
def txLe (t1 t2 : Transaction) : Prop := keyLe (txKey t1) (txKey t2) = true

instance : DecidableRel txLe := fun _ _ => instDecidableEqBool _ _

/-- The grouping key of both `render_pdf` and the per-account summary of
`cli.main`: `(Account, TaxStatus)`. -/
def txKey2 (t : Transaction) : List String := [t.account, t.taxStatus]

/-- Row order by the grouping key `(Account, TaxStatus)`. -/
def txLe2 (t1 t2 : Transaction) : Prop := keyLe (txKey2 t1) (txKey2 t2) = true

instance : DecidableRel txLe2 := fun _ _ => instDecidableEqBool _ _

/-! ### Rounding -/

/-- Modelled from the spec: shares are rounded to the nearest whole unit,
half away from zero; the engine only ever rounds nonnegative quantities
(`|delta_dollars| / price`), where this is `⌊q + 1/2⌋`. -/
def roundShares (q : ℚ) : ℚ := ((⌊q + 1/2⌋ : ℤ) : ℚ)

/-- Python's built-in `round` on an exact rational: round half to even.
`int(...)` applied to its result is the identity, so `int(round(x))`
in `cli.main` is this function. -/
def pyRound (q : ℚ) : ℤ :=
  let f := ⌊q⌋
  if q - f < 1/2 then f
  else if (1:ℚ)/2 < q - f then f + 1
  else if f % 2 = 0 then f else f + 1

/-! ### The engine, modelled from the spec

`build_trades_and_afterholdings` (module `portfolio_trades/engine.py`) is
not among the available sources; sections 3, 4 and 7 of the spec describe
it.  The model below follows those sections.  Instrument selection for a
sleeve with no current position is not pinned down by the spec ("a bond
identifier at price $100"); it is supplied as an explicit `catalog`
parameter mapping a sleeve to the identifier and price used for fresh
buys.  Lot granularity is the spec default of one whole share. -/

/-- Engine failures.  Per section 7 of the spec only configuration
problems abort the run. -/
inductive EngineError where
  | configurationError (message : String)
deriving DecidableEq

deriving instance DecidableEq for Except

/-- Sum of the fractional weights of a target-weight vector. -/
def weightsSum (w : List (String × ℚ)) : ℚ := (w.map (·.2)).sum

/-- Modelled from the spec: the Target Mix Resolver looks up the
externally supplied sleeve-to-weight table for the requested
volatility-band tag and fails with a `ConfigurationError` if the band is
unknown or the weights do not sum to 1 within epsilon = 1e-6. -/
def resolveTargets (table : List (ℤ × List (String × ℚ))) (band : ℤ) :
    Except EngineError (List (String × ℚ)) :=
  match table.find? (fun e => e.1 == band) with
  | none => .error (.configurationError "unknown volatility band")
  | some e =>
      if |weightsSum e.2 - 1| ≤ 1/1000000 then .ok e.2
      else .error (.configurationError "target weights do not sum to 1")

/-- Total market value of a list of holdings. -/
def marketValue (hs : List Holding) : ℚ := (hs.map (fun h => h.shares * h.price)).sum

/-- The holdings belonging to one account. -/
def accountHoldings (hs : List Holding) (a : String) : List Holding :=
  hs.filter (fun h => h.account == a)

/-- Market value of one account's holdings. -/
def mvForAccount (hs : List Holding) (a : String) : ℚ :=
  marketValue (accountHoldings hs a)

/-- Shares currently held for one identifier within a (pre-filtered)
per-account holding list. -/
def sharesHeld (accHold : List Holding) (i : String) : ℚ :=
  ((accHold.filter (fun h => h.identifier == i)).map (·.shares)).sum

/-- Shares held for an identifier in an account of the full table. -/
def heldShares (hs : List Holding) (a i : String) : ℚ :=
  sharesHeld (accountHoldings hs a) i

/-- Current dollars invested in one sleeve of a per-account holding
list. -/
def curDollars (accHold : List Holding) (s : String) : ℚ :=
  marketValue (accHold.filter (fun h => h.sleeve == s))

/-- The distinct sleeves present in a per-account holding list. -/
def heldSleeves (accHold : List Holding) : List String :=
  (accHold.map (·.sleeve)).dedup

/-- Modelled from the spec: the Per-Account Allocator.  Equity times
weight minus current dollars per target sleeve; sleeves held but absent
from the target are driven to zero (forced full liquidation).  Equity is
the account's market value; the engine interface in `cli.main` passes no
cash balance. -/
def sleeveDeltas (weights : List (String × ℚ)) (accHold : List Holding) :
    List (String × ℚ) :=
  let equity := marketValue accHold
  (weights.map (fun sw => (sw.1, equity * sw.2 - curDollars accHold sw.1)))
    ++ ((heldSleeves accHold).filter
          (fun s => !(weights.any (fun sw => sw.1 == s)))).map
        (fun s => (s, - curDollars accHold s))

/-- Tax status of an account, read off its first holding row. -/
def accountTaxStatus (accHold : List Holding) : String :=
  match accHold with
  | [] => ""
  | h :: _ => h.taxStatus

/-- The identifier, representative price and pre-trade average cost the
Trade Synthesizer uses for a sleeve: those of the first holding of that
sleeve in the account, or the catalog instrument (at average cost 0) when
the sleeve has no current position. -/
def sleeveInstrument (catalog : String → String × ℚ)
    (accHold : List Holding) (s : String) : String × ℚ × ℚ :=
  match accHold.find? (fun h => h.sleeve == s) with
  | some h0 => (h0.identifier, h0.price, h0.averageCost)
  | none => ((catalog s).1, (catalog s).2, 0)

/-- Modelled from the spec: the Trade Synthesizer for one
(account, sleeve) delta.  Skips dust trades below the minimum-trade
threshold, buys on positive delta and sells otherwise, rounds
`|delta| / price` to the nearest whole share (half away from zero),
clamps a SELL to the shares currently held for the identifier, records
the pre-trade average cost, and computes the capital gain on SELL rows
only.  Zero-share results are not emitted (`shares_delta > 0` is an
invariant of the Transaction data model). -/
def synthOne (catalog : String → String × ℚ) (minTrade : ℚ)
    (a taxS : String) (accHold : List Holding) (sd : String × ℚ) :
    Option Transaction :=
  if |sd.2| < minTrade then none else
  let rep := sleeveInstrument catalog accHold sd.1
  let p := rep.2.1
  let rounded := roundShares (|sd.2| / p)
  if 0 < sd.2 then
    if rounded ≤ 0 then none else
    some { account := a
           taxStatus := taxS
           identifier := rep.1
           sleeve := sd.1
           action := .BUY
           sharesDelta := rounded
           price := p
           averageCost := rep.2.2
           deltaDollars := p * rounded
           capitalGain := 0 }
  else
    let shares := min rounded (sharesHeld accHold rep.1)
    if shares ≤ 0 then none else
    some { account := a
           taxStatus := taxS
           identifier := rep.1
           sleeve := sd.1
           action := .SELL
           sharesDelta := shares
           price := p
           averageCost := rep.2.2
           deltaDollars := -(p * shares)
           capitalGain := (p - rep.2.2) * shares }

/-- The transactions the Synthesizer emits for one account. -/
def perAccountTxs (catalog : String → String × ℚ) (minTrade : ℚ)
    (weights : List (String × ℚ)) (hs : List Holding) (a : String) :
    List Transaction :=
  let accHold := accountHoldings hs a
  (sleeveDeltas weights accHold).filterMap
    (synthOne catalog minTrade a (accountTaxStatus accHold) accHold)

/-- The accounts of the run, in first-appearance order. -/
def accountsOf (hs : List Holding) : List String := (hs.map (·.account)).dedup

/-- Cash flow a transaction implies for its account: SELL brings in
`price * shares_delta`, BUY pays it out. -/
def txCash (t : Transaction) : ℚ :=
  match t.action with
  | .SELL => t.price * t.sharesDelta
  | .BUY => -(t.price * t.sharesDelta)

/-- Modelled from the spec: the Cash Reconciler's net cash flow of one
account, `sum(SELL: price * shares_delta) - sum(BUY: price * shares_delta)`. -/
def netCashFlow (txs : List Transaction) (a : String) : ℚ :=
  ((txs.filter (fun t => t.account == a)).map txCash).sum

/-- Modelled from the spec: the Cash Reconciler surfaces each account
whose absolute net cash flow exceeds the tolerance as a named residual;
flows within tolerance are accepted silently. -/
def reconcile (accounts : List String) (txs : List Transaction) (tol : ℚ) :
    List (String × ℚ) :=
  accounts.filterMap (fun a =>
    let n := netCashFlow txs a
    if tol < |n| then some (a, n) else none)

/-- Post-trade average cost of a position increased by a BUY: the
weighted average of the pre-trade position and the newly bought shares. -/
def buyAvgCost (oldShares oldAvg sd p : ℚ) : ℚ :=
  (oldShares * oldAvg + sd * p) / (oldShares + sd)

/-- One holding updated by one transaction: BUY increases shares and
recomputes the average cost, SELL decreases shares and leaves the
average cost unchanged. -/
def applyHolding (h : Holding) (t : Transaction) : Holding :=
  match t.action with
  | .BUY => { h with
              shares := h.shares + t.sharesDelta
              averageCost := buyAvgCost h.shares h.averageCost t.sharesDelta t.price }
  | .SELL => { h with shares := h.shares - t.sharesDelta }

/-- The fresh position opened by a BUY of an identifier the account does
not hold: average cost equals the purchase price. -/
def newHolding (t : Transaction) : Holding :=
  { account := t.account
    taxStatus := t.taxStatus
    identifier := t.identifier
    sleeve := t.sleeve
    shares := t.sharesDelta
    price := t.price
    averageCost := t.price }

/-- Apply one transaction to the holding list: the first holding with the
transaction's account and identifier is updated; a BUY with no such
holding opens a fresh position. -/
def applyTx : List Holding → Transaction → List Holding
  | [], t =>
      match t.action with
      | .BUY => [newHolding t]
      | .SELL => []
  | h :: hs, t =>
      if h.account == t.account && h.identifier == t.identifier
      then applyHolding h t :: hs
      else h :: applyTx hs t

/-- Modelled from the spec: the Holdings Projector applies the whole
transaction set to the opening holdings and drops positions reduced to
zero shares (the spec's default policy). -/
def projectHoldings (hs : List Holding) (txs : List Transaction) : List Holding :=
  (txs.foldl applyTx hs).filter (fun h => !(h.shares == 0))

/-- The engine's result triple: the transaction table, the
holdings-after table and the residual mapping. -/
structure EngineResult where
  tx : List Transaction
  after : List Holding
  residuals : List (String × ℚ)
deriving DecidableEq

/-- Modelled from the spec: `build_trades_and_afterholdings`.  Computes
trades per account, orders the transaction table by
`(Account, Action, Sleeve, Identifier)` for reproducible reports,
projects the post-trade holdings and reconciles per-account cash. -/
def buildTradesAndAfterholdings (catalog : String → String × ℚ)
    (minTrade : ℚ) (hs : List Holding) (weights : List (String × ℚ))
    (cashTolerance : ℚ) : EngineResult :=
  let accounts := accountsOf hs
  let txsRaw := accounts.flatMap (perAccountTxs catalog minTrade weights hs)
  { tx := List.insertionSort txLe txsRaw
    after := projectHoldings hs txsRaw
    residuals := reconcile accounts txsRaw cashTolerance }

/-- The engine behind the resolver: resolve the band's weight vector,
then build trades; only a `ConfigurationError` can abort. -/
def runEngine (catalog : String → String × ℚ) (minTrade : ℚ)
    (table : List (ℤ × List (String × ℚ))) (band : ℤ) (hs : List Holding)
    (cashTolerance : ℚ) : Except EngineError EngineResult :=
  (resolveTargets table band).map
    (fun weights => buildTradesAndAfterholdings catalog minTrade hs weights cashTolerance)

/-! ### The CLI layer, embedded from `portfolio_trades/cli.py` -/

/-- `cli.main`: `vol_pct_tag = int(round(args.vol * 100))`. -/
def volPctTag (vol : ℚ) : ℤ := pyRound (vol * 100)

/-- `cli.main`: the derived column
`tx["Buy_$"] = tx["Delta_Dollars"].where(tx["Action"] == "BUY", 0.0)`. -/
def buyDollars (t : Transaction) : ℚ :=
  if t.action = Action.BUY then t.deltaDollars else 0

/-- `cli.main`: the derived column
`tx["Sell_$"] = (-tx["Delta_Dollars"]).where(tx["Action"] == "SELL", 0.0)`. -/
def sellDollars (t : Transaction) : ℚ :=
  if t.action = Action.SELL then -t.deltaDollars else 0

/-- `cli._est_tax`: estimated capital-gains tax from a summary row's tax
status and net capital gain. -/
def estTax (taxS : String) (netCapGain : ℚ) : ℚ :=
  if taxS = "HSA" ∨ taxS = "ROTH IRA" then 0
  else if taxS = "Trust" then netCapGain * (20/100)
  else netCapGain * (15/100)

/-- One row of the per-account summary table `acc_sum` of `cli.main`. -/
structure SummaryRow where
  account : String
  taxStatus : String
  totalBuys : ℚ
  totalSells : ℚ
  netCapGain : ℚ
  estTaxAmt : ℚ
deriving DecidableEq

/-- One row of the by-tax-status summary table `by_status` of `cli.main`. -/
structure StatusRow where
  taxStatus : String
  totalBuys : ℚ
  totalSells : ℚ
  netCapGain : ℚ
  estTaxAmt : ℚ
deriving DecidableEq

/-- Order on `(Account, TaxStatus)` group keys, as `pandas.groupby`
iterates them. -/
def pairLe (k1 k2 : String × String) : Prop := keyLe [k1.1, k1.2] [k2.1, k2.2] = true

instance : DecidableRel pairLe := fun _ _ => instDecidableEqBool _ _

/-- Order on tax-status group keys. -/
def statusLe (s1 s2 : String) : Prop := keyLe [s1] [s2] = true

instance : DecidableRel statusLe := fun _ _ => instDecidableEqBool _ _

/-- The distinct `(Account, TaxStatus)` keys of a transaction table, in
the sorted order `pandas.groupby` produces them. -/
def groupKeys2 (txs : List Transaction) : List (String × String) :=
  List.insertionSort pairLe ((txs.map (fun t => (t.account, t.taxStatus))).dedup)

/-- The aggregation of one `(Account, TaxStatus)` group of `acc_sum`:
`Total_Buys = sum Buy_$`, `Total_Sells = sum Sell_$`,
`Net_CapGain = sum CapGain_Dollars`, then `Est_Tax = _est_tax(row)`. -/
def summarize (a taxS : String) (g : List Transaction) : SummaryRow :=
  { account := a
    taxStatus := taxS
    totalBuys := (g.map buyDollars).sum
    totalSells := (g.map sellDollars).sum
    netCapGain := (g.map (·.capitalGain)).sum
    estTaxAmt := estTax taxS ((g.map (·.capitalGain)).sum) }

/-- `cli.main`: the per-account summary table
`acc_sum = tx.groupby(["Account", "TaxStatus"]).agg(...)` with its
`Est_Tax` column. -/
def buildAccSum (txs : List Transaction) : List SummaryRow :=
  (groupKeys2 txs).map (fun k =>
    summarize k.1 k.2 (txs.filter (fun t => t.account == k.1 && t.taxStatus == k.2)))

/-- `cli.main`: the by-tax-status summary table
`by_status = tx.groupby("TaxStatus").agg(...)` with its `Est_Tax`
column. -/
def buildByStatus (txs : List Transaction) : List StatusRow :=
  (List.insertionSort statusLe ((txs.map (·.taxStatus)).dedup)).map (fun s =>
    let g := txs.filter (fun t => t.taxStatus == s)
    { taxStatus := s
      totalBuys := (g.map buyDollars).sum
      totalSells := (g.map sellDollars).sum
      netCapGain := (g.map (·.capitalGain)).sum
      estTaxAmt := estTax s ((g.map (·.capitalGain)).sum) })

/-- `report_pdf.render_pdf`: the transaction rows in the order they are
rendered.  The source sorts by `(Account, Action, Sleeve, Identifier)`
and then iterates `groupby(["Account", "TaxStatus"])`, which walks the
groups in sorted key order keeping the within-group order; the rendered
sequence is therefore the stable sort by the group key of the stable
sort by the four-column key. -/
def pdfRenderRows (txs : List Transaction) : List Transaction :=
  List.insertionSort txLe2 (List.insertionSort txLe txs)

/-- The outputs `cli.main` produces after the engine returns: the CSV
rows, the holdings-after rows, one warning per residual entry, and the
PDF rows (`none` when the transaction table is empty and the PDF step is
skipped). -/
structure MainResult where
  volTag : ℤ
  csvRows : List Transaction
  holdingsAfterRows : List Holding
  warnings : List (String × ℚ)
  pdfRows : Option (List Transaction)
deriving DecidableEq

/-- The output assembly of `cli.main` from the engine result. -/
def mainOutputs (tag : ℤ) (r : EngineResult) : MainResult :=
  { volTag := tag
    csvRows := r.tx
    holdingsAfterRows := r.after
    warnings := r.residuals
    pdfRows := if r.tx.isEmpty then none else some (pdfRenderRows r.tx) }

/-- `cli.main` end to end, I/O stripped: compute the volatility-band tag
from the float `--vol` argument, load the targets for that band, run the
engine and assemble the outputs. -/
def runMain (catalog : String → String × ℚ) (minTrade : ℚ)
    (table : List (ℤ × List (String × ℚ))) (hs : List Holding)
    (vol cashTol : ℚ) : Except EngineError MainResult :=
  (runEngine catalog minTrade table (volPctTag vol) hs cashTol).map
    (mainOutputs (volPctTag vol))

/-! ### Verification apparatus -/

/-- Value of a residual mapping at an account, zero when absent. -/
def residualCash (res : List (String × ℚ)) (a : String) : ℚ :=
  match res.find? (fun e => e.1 == a) with
  | some e => e.2
  | none => 0

/-- Data well-formedness, the engine's input contract: section 7 of the
spec makes a holding with negative shares or non-positive price a fatal
`DataError` before the engine runs, and an identifier is one instrument,
so within an account it has a single sleeve and price.  The catalog
instruments used for fresh buys (only ever requested for target sleeves)
are actual new positions: distinct per sleeve, positively priced and not
already held. -/
def WellFormedData (hs : List Holding) (catalog : String → String × ℚ)
    (weights : List (String × ℚ)) : Prop :=
  (∀ h1 ∈ hs, ∀ h2 ∈ hs, h1.account = h2.account → h1.identifier = h2.identifier →
      h1.sleeve = h2.sleeve ∧ h1.price = h2.price)
  ∧ (∀ h ∈ hs, 0 ≤ h.shares ∧ 0 < h.price)
  ∧ (∀ sw ∈ weights, ∀ h ∈ hs, (catalog sw.1).1 ≠ h.identifier)
  ∧ (∀ sw1 ∈ weights, ∀ sw2 ∈ weights, sw1.1 ≠ sw2.1 → (catalog sw1.1).1 ≠ (catalog sw2.1).1)
  ∧ (∀ sw ∈ weights, 0 < (catalog sw.1).2)
  ∧ (weights.map (·.1)).Nodup

instance decWellFormedData (hs : List Holding) (catalog : String → String × ℚ)
    (w : List (String × ℚ)) : Decidable (WellFormedData hs catalog w) := by
  unfold WellFormedData
  infer_instance

/-- The first holding carrying an account's position in an identifier:
the holding `applyTx` updates. -/
def firstIdMatch (hs : List Holding) (a i : String) : Option Holding :=
  hs.find? (fun h => h.account == a && h.identifier == i)

/-- Market-value change of `applyTx hs t` relative to `hs`. -/
def mvDelta (hs : List Holding) (t : Transaction) : ℚ :=
  match firstIdMatch hs t.account t.identifier with
  | some h =>
      if t.action = Action.BUY then t.sharesDelta * h.price else -(t.sharesDelta * h.price)
  | none => if t.action = Action.BUY then t.sharesDelta * t.price else 0

/-- A transaction applies cleanly to a holding list: the position it
updates carries the transaction's price, and a transaction with no
matching position is a BUY (opening a fresh one). -/
def GoodTx (hs : List Holding) (t : Transaction) : Prop :=
  match firstIdMatch hs t.account t.identifier with
  | some h => h.price = t.price
  | none => t.action = Action.BUY

/-- A transaction's dollar columns are the Synthesizer's:
`delta_dollars = ±price * shares_delta` by action. -/
def DollarsOk (t : Transaction) : Prop :=
  t.deltaDollars =
    if t.action = Action.BUY then t.price * t.sharesDelta else -(t.price * t.sharesDelta)

/-- Two transactions touch different positions: they differ in account
or identifier.  The engine emits at most one transaction per position,
so its transaction set is pairwise key-distinct. -/
def KeyDistinct (t1 t2 : Transaction) : Prop :=
  ¬(t1.account = t2.account ∧ t1.identifier = t2.identifier)

/-- Cash flow the Synthesizer would imply for one sleeve delta before
the SELL clamp: `±price * rounded` for the full rounded share count. -/
def preClampCashOne (catalog : String → String × ℚ) (minTrade : ℚ)
    (accHold : List Holding) (sd : String × ℚ) : ℚ :=
  if |sd.2| < minTrade then 0 else
  let rep := sleeveInstrument catalog accHold sd.1
  let rounded := roundShares (|sd.2| / rep.2.1)
  if 0 < sd.2 then -(rep.2.1 * rounded) else rep.2.1 * rounded

/-- Dollars a SELL loses to the no-naked-short clamp for one sleeve
delta: price times the gap between the rounded request and the clamped
execution. -/
def clampShortfallOne (catalog : String → String × ℚ) (minTrade : ℚ)
    (accHold : List Holding) (sd : String × ℚ) : ℚ :=
  if |sd.2| < minTrade then 0 else
  let rep := sleeveInstrument catalog accHold sd.1
  let rounded := roundShares (|sd.2| / rep.2.1)
  if 0 < sd.2 then 0
  else rep.2.1 * (rounded - min rounded (sharesHeld accHold rep.1))

/-- The account's cash flow before SELL clamping. -/
def preClampCash (catalog : String → String × ℚ) (minTrade : ℚ)
    (weights : List (String × ℚ)) (hs : List Holding) (a : String) : ℚ :=
  ((sleeveDeltas weights (accountHoldings hs a)).map
    (preClampCashOne catalog minTrade (accountHoldings hs a))).sum

/-- The account's total clamp shortfall in dollars. -/
def clampShortfall (catalog : String → String × ℚ) (minTrade : ℚ)
    (weights : List (String × ℚ)) (hs : List Holding) (a : String) : ℚ :=
  ((sleeveDeltas weights (accountHoldings hs a)).map
    (clampShortfallOne catalog minTrade (accountHoldings hs a))).sum

/-! ### Concrete data for witnesses

The section 8 scenario of the spec, scaled down: a single account half
in equity, half targeted to go into bonds, plus a second portfolio whose
lot rounding leaves a beyond-tolerance cash residual. -/

/-- A one-account portfolio: 4 shares of X at 2, average cost 1. -/
def exHoldings : List Holding := [⟨"A", "Trust", "X", "EQ", 4, 2, 1⟩]

/-- The 8 percent band targets half equity, half bonds. -/
def exTable : List (ℤ × List (String × ℚ)) :=
  [(8, [("EQ", 1/2), ("BD", 1/2)])]

/-- Fresh instruments bought per sleeve, price 1. -/
def exCatalog : String → String × ℚ := fun s => (String.append "N" s, 1)

/-- The SELL row the engine emits on the example portfolio. -/
def exSellTx : Transaction :=
  ⟨"A", "Trust", "X", "EQ", .SELL, 2, 2, 1, -4, 2⟩

/-- The BUY row the engine emits on the example portfolio. -/
def exBuyTx : Transaction :=
  ⟨"A", "Trust", "NBD", "BD", .BUY, 4, 1, 0, 4, 0⟩

/-- A portfolio that liquidates into an oddly priced bond: the rounded
buy undershoots the sale by 1 dollar, beyond a 1/2 dollar tolerance. -/
def rsHoldings : List Holding := [⟨"B", "HSA", "X", "EQ", 2, 2, 1⟩]

/-- All-bonds target for the residual example. -/
def rsTable : List (ℤ × List (String × ℚ)) := [(8, [("BD", 1)])]

/-- Catalog for the residual example: bonds trade at 3 dollars. -/
def rsCatalog : String → String × ℚ := fun s => (String.append "N" s, 3)

/-! ### General lemmas -/

theorem estTax_cases (s : String) (g : ℚ) :
    ((s = "HSA" ∨ s = "ROTH IRA") → estTax s g = 0)
    ∧ (s = "Trust" → estTax s g = g * (20/100))
    ∧ (s ≠ "HSA" → s ≠ "ROTH IRA" → s ≠ "Trust" → estTax s g = g * (15/100)) := by
  refine ⟨fun h => by simp [estTax, h], fun h => ?_, fun h1 h2 h3 => ?_⟩
  · subst h
    rw [estTax, if_neg (by simp), if_pos rfl]
  · rw [estTax, if_neg (by simp [h1, h2]), if_neg h3]

/-! ### C8: the volatility-band tag -/

/-- C8: `cli.main` hands the target-weights loader the band tag
`int(round(vol * 100))` computed from the float `--vol` argument, and
the default `vol = 0.08` yields band tag 8. -/
theorem vol_band_tag :
    (∀ (catalog : String → String × ℚ) (minTrade : ℚ)
        (table : List (ℤ × List (String × ℚ))) (hs : List Holding) (vol cashTol : ℚ),
      runMain catalog minTrade table hs vol cashTol
        = (runEngine catalog minTrade table (pyRound (vol * 100)) hs cashTol).map
            (mainOutputs (pyRound (vol * 100))))
    ∧ volPctTag (8/100) = 8 := by
  refine ⟨fun _ _ _ _ _ _ => rfl, ?_⟩
  with_unfolding_all decide

/-! ### C9: the derived Buy and Sell dollar columns -/

/-- C9: on every row of a non-empty transaction table, the derived
columns of `cli.main` satisfy `Buy_$ - Sell_$ = Delta_Dollars`; `Buy_$`
is `Delta_Dollars` exactly on BUY rows, `Sell_$` is `-Delta_Dollars`
exactly on SELL rows, and at most one of the two is nonzero. -/
theorem buy_sell_column_identity (txs : List Transaction) (_hne : txs ≠ []) :
    ∀ t ∈ txs,
      buyDollars t - sellDollars t = t.deltaDollars
      ∧ (t.action = Action.BUY → buyDollars t = t.deltaDollars)
      ∧ (t.action ≠ Action.BUY → buyDollars t = 0)
      ∧ (t.action = Action.SELL → sellDollars t = -t.deltaDollars)
      ∧ (t.action ≠ Action.SELL → sellDollars t = 0)
      ∧ (buyDollars t = 0 ∨ sellDollars t = 0) := by
  intro t _
  cases h : t.action <;> simp [buyDollars, sellDollars, h]

/-- Witness for C9 at the section 8 SELL row. -/
theorem buy_sell_column_identity_witness :
    (([exSellTx] : List Transaction) ≠ [])
    ∧ buyDollars exSellTx - sellDollars exSellTx = exSellTx.deltaDollars :=
  ⟨by simp, (buy_sell_column_identity [exSellTx] (by simp) exSellTx (by simp)).1⟩

/-! ### C5: estimated tax by status -/

/-- C5: every row of the per-account summary `acc_sum` and of the
by-status summary `by_status` carries estimated capital-gains tax 0 for
HSA and ROTH IRA, 20 percent of the net capital gain for Trust, and 15
percent of the net capital gain for every other tax status. -/
theorem est_tax_by_status (txs : List Transaction) :
    (∀ row ∈ buildAccSum txs,
      ((row.taxStatus = "HSA" ∨ row.taxStatus = "ROTH IRA") → row.estTaxAmt = 0)
      ∧ (row.taxStatus = "Trust" → row.estTaxAmt = row.netCapGain * (20/100))
      ∧ (row.taxStatus ≠ "HSA" → row.taxStatus ≠ "ROTH IRA" → row.taxStatus ≠ "Trust" →
          row.estTaxAmt = row.netCapGain * (15/100)))
    ∧ (∀ row ∈ buildByStatus txs,
      ((row.taxStatus = "HSA" ∨ row.taxStatus = "ROTH IRA") → row.estTaxAmt = 0)
      ∧ (row.taxStatus = "Trust" → row.estTaxAmt = row.netCapGain * (20/100))
      ∧ (row.taxStatus ≠ "HSA" → row.taxStatus ≠ "ROTH IRA" → row.taxStatus ≠ "Trust" →
          row.estTaxAmt = row.netCapGain * (15/100))) := by
  constructor
  · intro row hrow
    simp only [buildAccSum, List.mem_map] at hrow
    obtain ⟨k, _, rfl⟩ := hrow
    simpa [summarize] using estTax_cases k.2 _
  · intro row hrow
    simp only [buildByStatus, List.mem_map] at hrow
    obtain ⟨s, _, rfl⟩ := hrow
    simpa using estTax_cases s _

/-- Witness for C5: a one-row Trust account is taxed at 20 percent. -/
theorem est_tax_by_status_witness :
    (summarize "A" "Trust" [exSellTx]) ∈ buildAccSum [exSellTx]
    ∧ (summarize "A" "Trust" [exSellTx]).estTaxAmt
        = (summarize "A" "Trust" [exSellTx]).netCapGain * (20/100) :=
  ⟨by with_unfolding_all decide,
   ((est_tax_by_status [exSellTx]).1 (summarize "A" "Trust" [exSellTx])
     (by with_unfolding_all decide)).2.1 rfl⟩

/-! ### The run wrappers -/

theorem runEngine_ok {catalog : String → String × ℚ} {minTrade : ℚ}
    {table : List (ℤ × List (String × ℚ))} {band : ℤ} {hs : List Holding}
    {cashTol : ℚ} {r : EngineResult}
    (h : runEngine catalog minTrade table band hs cashTol = .ok r) :
    ∃ w, resolveTargets table band = .ok w
      ∧ r = buildTradesAndAfterholdings catalog minTrade hs w cashTol := by
  unfold runEngine at h
  cases hres : resolveTargets table band with
  | error e => rw [hres] at h; exact absurd h (by simp [Except.map])
  | ok w =>
      rw [hres] at h
      simp only [Except.map, Except.ok.injEq] at h
      exact ⟨w, rfl, h.symm⟩

theorem buildTrades_tx (catalog : String → String × ℚ) (minTrade : ℚ)
    (hs : List Holding) (w : List (String × ℚ)) (cashTol : ℚ) :
    (buildTradesAndAfterholdings catalog minTrade hs w cashTol).tx
      = List.insertionSort txLe ((accountsOf hs).flatMap (perAccountTxs catalog minTrade w hs)) :=
  rfl

theorem buildTrades_after (catalog : String → String × ℚ) (minTrade : ℚ)
    (hs : List Holding) (w : List (String × ℚ)) (cashTol : ℚ) :
    (buildTradesAndAfterholdings catalog minTrade hs w cashTol).after
      = projectHoldings hs ((accountsOf hs).flatMap (perAccountTxs catalog minTrade w hs)) :=
  rfl

theorem buildTrades_residuals (catalog : String → String × ℚ) (minTrade : ℚ)
    (hs : List Holding) (w : List (String × ℚ)) (cashTol : ℚ) :
    (buildTradesAndAfterholdings catalog minTrade hs w cashTol).residuals
      = reconcile (accountsOf hs)
          ((accountsOf hs).flatMap (perAccountTxs catalog minTrade w hs)) cashTol :=
  rfl

theorem runMain_ok {catalog : String → String × ℚ} {minTrade : ℚ}
    {table : List (ℤ × List (String × ℚ))} {hs : List Holding}
    {vol cashTol : ℚ} {m : MainResult}
    (h : runMain catalog minTrade table hs vol cashTol = .ok m) :
    ∃ r, runEngine catalog minTrade table (volPctTag vol) hs cashTol = .ok r
      ∧ m = mainOutputs (volPctTag vol) r := by
  unfold runMain at h
  cases hrun : runEngine catalog minTrade table (volPctTag vol) hs cashTol with
  | error e => rw [hrun] at h; exact absurd h (by simp [Except.map])
  | ok r =>
      rw [hrun] at h
      simp only [Except.map, Except.ok.injEq] at h
      exact ⟨r, rfl, h.symm⟩

/-! ### C10: the summary lookup of the PDF renderer -/

/-- C10: every (Account, TaxStatus) pair of the transaction table has at
least one row in the per-account summary built from the same table by
the same keys, so the positional `.iloc[0]` lookup `render_pdf` performs
for each rendered account section never fails. -/
theorem summary_lookup_total (txs : List Transaction) :
    ∀ t ∈ pdfRenderRows txs,
      (∃ row ∈ buildAccSum txs, row.account = t.account ∧ row.taxStatus = t.taxStatus)
      ∧ ((buildAccSum txs).filter
          (fun row => row.account == t.account && row.taxStatus == t.taxStatus)) ≠ [] := by
  intro t ht
  have htx : t ∈ txs := by
    have h1 := (List.perm_insertionSort txLe2 (List.insertionSort txLe txs)).mem_iff.mp ht
    exact (List.perm_insertionSort txLe txs).mem_iff.mp h1
  have hkey : (t.account, t.taxStatus) ∈ groupKeys2 txs := by
    unfold groupKeys2
    refine (List.perm_insertionSort pairLe _).mem_iff.mpr (List.mem_dedup.mpr ?_)
    exact List.mem_map.mpr ⟨t, htx, rfl⟩
  have hrow : summarize t.account t.taxStatus
      (txs.filter (fun u => u.account == t.account && u.taxStatus == t.taxStatus))
      ∈ buildAccSum txs := by
    unfold buildAccSum
    exact List.mem_map.mpr ⟨(t.account, t.taxStatus), hkey, rfl⟩
  refine ⟨⟨_, hrow, rfl, rfl⟩, ?_⟩
  exact List.ne_nil_of_mem (List.mem_filter.mpr ⟨hrow, by simp [summarize]⟩)

/-- Witness for C10 on a one-row table. -/
theorem summary_lookup_total_witness :
    exSellTx ∈ pdfRenderRows [exSellTx]
    ∧ ((buildAccSum [exSellTx]).filter
        (fun row => row.account == exSellTx.account && row.taxStatus == exSellTx.taxStatus)) ≠ [] :=
  ⟨by with_unfolding_all decide,
   (summary_lookup_total [exSellTx] exSellTx (by with_unfolding_all decide)).2⟩

/-! ### C7: empty transaction set -/

/-- C7: when the engine produces an empty transaction set, `cli.main`
completes without error: it still writes the CSV rows (empty) and the
holdings-after output, surfaces the residual warnings, and skips the
PDF step. -/
theorem empty_tx_reporting (catalog : String → String × ℚ) (minTrade : ℚ)
    (table : List (ℤ × List (String × ℚ))) (hs : List Holding) (vol cashTol : ℚ)
    (r : EngineResult)
    (hok : runEngine catalog minTrade table (volPctTag vol) hs cashTol = .ok r)
    (hempty : r.tx = []) :
    ∃ m, runMain catalog minTrade table hs vol cashTol = .ok m
      ∧ m.pdfRows = none
      ∧ m.csvRows = []
      ∧ m.holdingsAfterRows = r.after
      ∧ m.warnings = r.residuals := by
  refine ⟨mainOutputs (volPctTag vol) r, ?_, ?_, ?_, rfl, rfl⟩
  · unfold runMain
    rw [hok]
    rfl
  · simp [mainOutputs, hempty]
  · simpa [mainOutputs] using hempty

/-- Witness for C7: an empty portfolio yields an empty transaction set
and a completed run with no PDF. -/
theorem empty_tx_reporting_witness :
    runEngine exCatalog 0 exTable (volPctTag (8/100)) [] (1/2)
        = .ok (buildTradesAndAfterholdings exCatalog 0 [] [("EQ", 1/2), ("BD", 1/2)] (1/2))
    ∧ (buildTradesAndAfterholdings exCatalog 0 [] [("EQ", 1/2), ("BD", 1/2)] (1/2)).tx = []
    ∧ ∃ m, runMain exCatalog 0 exTable [] (8/100) (1/2) = .ok m
        ∧ m.pdfRows = none
        ∧ m.csvRows = []
        ∧ m.holdingsAfterRows
            = (buildTradesAndAfterholdings exCatalog 0 [] [("EQ", 1/2), ("BD", 1/2)] (1/2)).after
        ∧ m.warnings
            = (buildTradesAndAfterholdings exCatalog 0 [] [("EQ", 1/2), ("BD", 1/2)] (1/2)).residuals :=
  ⟨by with_unfolding_all decide, by with_unfolding_all decide,
   empty_tx_reporting exCatalog 0 exTable [] (8/100) (1/2) _
     (by with_unfolding_all decide) (by with_unfolding_all decide)⟩

/-! ### C6: residual warnings -/

/-- C6: a cash residual beyond tolerance is never fatal and never
dropped: when the engine returns, `cli.main` returns too, its warning
list is exactly the engine's residual mapping (one warning per residual
account, with its signed dollar amount), and the CSV and holdings-after
outputs are still produced. -/
theorem residual_surfaced_nonfatal (catalog : String → String × ℚ) (minTrade : ℚ)
    (table : List (ℤ × List (String × ℚ))) (hs : List Holding) (vol cashTol : ℚ)
    (r : EngineResult)
    (hok : runEngine catalog minTrade table (volPctTag vol) hs cashTol = .ok r) :
    ∃ m, runMain catalog minTrade table hs vol cashTol = .ok m
      ∧ m.warnings = r.residuals
      ∧ (∀ e ∈ r.residuals, e ∈ m.warnings)
      ∧ m.csvRows = r.tx
      ∧ m.holdingsAfterRows = r.after := by
  refine ⟨mainOutputs (volPctTag vol) r, ?_, rfl, fun e he => he, rfl, rfl⟩
  unfold runMain
  rw [hok]
  rfl

/-- Witness for C6: the rounding-residual portfolio carries the residual
entry (B, 1) through to the warnings. -/
theorem residual_surfaced_nonfatal_witness :
    runEngine rsCatalog 0 rsTable (volPctTag (8/100)) rsHoldings (1/2)
        = .ok (buildTradesAndAfterholdings rsCatalog 0 rsHoldings [("BD", 1)] (1/2))
    ∧ ("B", (1 : ℚ)) ∈ (buildTradesAndAfterholdings rsCatalog 0 rsHoldings [("BD", 1)] (1/2)).residuals
    ∧ ∃ m, runMain rsCatalog 0 rsTable rsHoldings (8/100) (1/2) = .ok m
        ∧ m.warnings = (buildTradesAndAfterholdings rsCatalog 0 rsHoldings [("BD", 1)] (1/2)).residuals
        ∧ (∀ e ∈ (buildTradesAndAfterholdings rsCatalog 0 rsHoldings [("BD", 1)] (1/2)).residuals,
            e ∈ m.warnings)
        ∧ m.csvRows = (buildTradesAndAfterholdings rsCatalog 0 rsHoldings [("BD", 1)] (1/2)).tx
        ∧ m.holdingsAfterRows
            = (buildTradesAndAfterholdings rsCatalog 0 rsHoldings [("BD", 1)] (1/2)).after :=
  ⟨by with_unfolding_all decide, by with_unfolding_all decide,
   residual_surfaced_nonfatal rsCatalog 0 rsTable rsHoldings (8/100) (1/2) _
     (by with_unfolding_all decide)⟩

/-! ### The lexicographic key order -/

theorem charListLt_irrefl (xs : List Char) : charListLt xs xs = false := by
  induction xs with
  | nil => rfl
  | cons c cs ih => simp [charListLt, ih]

theorem charListLt_trans {xs ys zs : List Char}
    (h1 : charListLt xs ys = true) (h2 : charListLt ys zs = true) :
    charListLt xs zs = true := by
  induction xs generalizing ys zs with
  | nil =>
      cases ys with
      | nil => exact absurd h1 (by simp [charListLt])
      | cons d ds =>
          cases zs with
          | nil => exact absurd h2 (by simp [charListLt])
          | cons e es => rfl
  | cons c cs ih =>
      cases ys with
      | nil => exact absurd h1 (by simp [charListLt])
      | cons d ds =>
          cases zs with
          | nil => exact absurd h2 (by simp [charListLt])
          | cons e es =>
              simp only [charListLt] at h1 h2 ⊢
              by_cases hcd : c = d
              · subst hcd
                rw [if_pos rfl] at h1
                by_cases hce : c = e
                · subst hce
                  rw [if_pos rfl] at h2 ⊢
                  exact ih h1 h2
                · rw [if_neg hce] at h2 ⊢
                  exact h2
              · rw [if_neg hcd] at h1
                by_cases hde : d = e
                · subst hde
                  rw [if_neg hcd]
                  exact h1
                · rw [if_neg hde] at h2
                  have hlt : c < e :=
                    lt_trans (of_decide_eq_true h1) (of_decide_eq_true h2)
                  have hce : c ≠ e := ne_of_lt hlt
                  rw [if_neg hce]
                  exact decide_eq_true hlt

theorem charListLt_total {xs ys : List Char} (h : xs ≠ ys) :
    charListLt xs ys = true ∨ charListLt ys xs = true := by
  induction xs generalizing ys with
  | nil =>
      cases ys with
      | nil => exact absurd rfl h
      | cons d ds => exact Or.inl rfl
  | cons c cs ih =>
      cases ys with
      | nil => exact Or.inr rfl
      | cons d ds =>
          by_cases hcd : c = d
          · subst hcd
            have hne : cs ≠ ds := fun hh => h (by rw [hh])
            rcases ih hne with h1 | h1
            · exact Or.inl (by simpa [charListLt] using h1)
            · exact Or.inr (by simpa [charListLt] using h1)
          · rcases lt_or_gt_of_ne hcd with hlt | hgt
            · exact Or.inl (by simp [charListLt, if_neg hcd, hlt])
            · exact Or.inr (by simp [charListLt, if_neg (Ne.symm hcd), hgt])

theorem strLt_irrefl (s : String) : strLt s s = false := charListLt_irrefl s.data

theorem strLt_trans {s t u : String} (h1 : strLt s t = true) (h2 : strLt t u = true) :
    strLt s u = true := charListLt_trans h1 h2

theorem strLt_total {s t : String} (h : s ≠ t) :
    strLt s t = true ∨ strLt t s = true :=
  charListLt_total (fun hd => h (String.ext hd))

theorem keyLe_trans {xs ys zs : List String}
    (h1 : keyLe xs ys = true) (h2 : keyLe ys zs = true) : keyLe xs zs = true := by
  induction xs generalizing ys zs with
  | nil => rfl
  | cons x xs ih =>
      cases ys with
      | nil => exact absurd h1 (by simp [keyLe])
      | cons y ys' =>
          cases zs with
          | nil => exact absurd h2 (by simp [keyLe])
          | cons z zs' =>
              simp only [keyLe] at h1 h2 ⊢
              by_cases hxy : x = y
              · subst hxy
                rw [if_pos rfl] at h1
                by_cases hxz : x = z
                · subst hxz
                  rw [if_pos rfl] at h2 ⊢
                  exact ih h1 h2
                · rw [if_neg hxz] at h2 ⊢
                  exact h2
              · rw [if_neg hxy] at h1
                by_cases hyz : y = z
                · subst hyz
                  rw [if_neg hxy]
                  exact h1
                · rw [if_neg hyz] at h2
                  have hxz : x ≠ z := by
                    intro hh
                    subst hh
                    have := strLt_trans h1 h2
                    rw [strLt_irrefl] at this
                    exact absurd this (by simp)
                  rw [if_neg hxz]
                  exact strLt_trans h1 h2

theorem keyLe_total (xs ys : List String) : keyLe xs ys = true ∨ keyLe ys xs = true := by
  induction xs generalizing ys with
  | nil => exact Or.inl rfl
  | cons x xs ih =>
      cases ys with
      | nil => exact Or.inr rfl
      | cons y ys' =>
          by_cases hxy : x = y
          · subst hxy
            rcases ih ys' with h1 | h1
            · exact Or.inl (by simpa [keyLe] using h1)
            · exact Or.inr (by simpa [keyLe] using h1)
          · rcases strLt_total hxy with h1 | h1
            · exact Or.inl (by simp [keyLe, if_neg hxy, h1])
            · exact Or.inr (by simp [keyLe, if_neg (Ne.symm hxy), h1])

theorem txLe_isTrans : ∀ t1 t2 t3 : Transaction, txLe t1 t2 → txLe t2 t3 → txLe t1 t3 :=
  fun _ _ _ => keyLe_trans

theorem txLe_isTotal : ∀ t1 t2 : Transaction, txLe t1 t2 ∨ txLe t2 t1 :=
  fun t1 t2 => keyLe_total (txKey t1) (txKey t2)

theorem txLe2_isTrans : ∀ t1 t2 t3 : Transaction, txLe2 t1 t2 → txLe2 t2 t3 → txLe2 t1 t3 :=
  fun _ _ _ => keyLe_trans

theorem txLe2_isTotal : ∀ t1 t2 : Transaction, txLe2 t1 t2 ∨ txLe2 t2 t1 :=
  fun t1 t2 => keyLe_total (txKey2 t1) (txKey2 t2)

theorem txLe_imp_txLe2 {t1 t2 : Transaction} (h : txLe t1 t2)
    (htax : t1.account = t2.account → t1.taxStatus = t2.taxStatus) : txLe2 t1 t2 := by
  unfold txLe txKey at h
  unfold txLe2 txKey2
  by_cases hacc : t1.account = t2.account
  · simp [keyLe, hacc, htax hacc]
  · simp only [keyLe, if_neg hacc] at h ⊢
    exact h

/-! ### C4: deterministic output ordering -/

/-- C4: the transaction table is ordered by the key
`(Account, Action, Sleeve, Identifier)`: any earlier row's key is
lexicographically no greater than a later row's, both in the CSV rows
and in the rows rendered into the PDF (given that the tax status is a
function of the account, as the data model owns tax status per
account). -/
theorem output_ordering_sorted (catalog : String → String × ℚ) (minTrade : ℚ)
    (table : List (ℤ × List (String × ℚ))) (hs : List Holding) (vol cashTol : ℚ)
    (m : MainResult)
    (hok : runMain catalog minTrade table hs vol cashTol = .ok m)
    (htax : ∀ t1 ∈ m.csvRows, ∀ t2 ∈ m.csvRows,
        t1.account = t2.account → t1.taxStatus = t2.taxStatus) :
    m.csvRows.Pairwise txLe
    ∧ ∀ rows, m.pdfRows = some rows → rows.Pairwise txLe := by
  obtain ⟨r, hrun, rfl⟩ := runMain_ok hok
  obtain ⟨w, _, rfl⟩ := runEngine_ok hrun
  haveI : IsTrans Transaction txLe := ⟨txLe_isTrans⟩
  haveI : IsTotal Transaction txLe := ⟨txLe_isTotal⟩
  have hsorted :
      (List.insertionSort txLe
        ((accountsOf hs).flatMap (perAccountTxs catalog minTrade w hs))).Pairwise txLe :=
    List.sorted_insertionSort txLe _
  refine ⟨hsorted, ?_⟩
  intro rows hrows
  simp only [mainOutputs] at hrows
  split at hrows
  · exact absurd hrows (by simp)
  · obtain rfl := Option.some.inj hrows
    have h2 : (List.insertionSort txLe
        ((accountsOf hs).flatMap (perAccountTxs catalog minTrade w hs))).Pairwise txLe2 := by
      refine List.Pairwise.imp_of_mem (fun ha hb hab => ?_) hsorted
      exact txLe_imp_txLe2 hab (htax _ ha _ hb)
    show (pdfRenderRows _).Pairwise txLe
    unfold pdfRenderRows
    rw [buildTrades_tx, List.Sorted.insertionSort_eq hsorted, List.Sorted.insertionSort_eq h2]
    exact hsorted

/-- Witness for C4 on the example portfolio, whose run emits a BUY and a
SELL row. -/
theorem output_ordering_sorted_witness :
    runMain exCatalog 0 exTable exHoldings (8/100) (1/2)
        = .ok (mainOutputs (volPctTag (8/100))
            (buildTradesAndAfterholdings exCatalog 0 exHoldings [("EQ", 1/2), ("BD", 1/2)] (1/2)))
    ∧ (mainOutputs (volPctTag (8/100))
        (buildTradesAndAfterholdings exCatalog 0 exHoldings
          [("EQ", 1/2), ("BD", 1/2)] (1/2))).csvRows.Pairwise txLe :=
  ⟨by with_unfolding_all decide,
   (output_ordering_sorted exCatalog 0 exTable exHoldings (8/100) (1/2) _
      (by with_unfolding_all decide) (by with_unfolding_all decide)).1⟩

/-! ### Structure of the synthesized transactions -/

theorem synthOne_some {catalog : String → String × ℚ} {minTrade : ℚ}
    {a taxS : String} {accHold : List Holding} {sd : String × ℚ} {t : Transaction}
    (h : synthOne catalog minTrade a taxS accHold sd = some t) :
    t.account = a
    ∧ t.taxStatus = taxS
    ∧ t.sleeve = sd.1
    ∧ t.identifier = (sleeveInstrument catalog accHold sd.1).1
    ∧ t.price = (sleeveInstrument catalog accHold sd.1).2.1
    ∧ t.averageCost = (sleeveInstrument catalog accHold sd.1).2.2
    ∧ 0 < t.sharesDelta
    ∧ (t.action = Action.SELL → t.sharesDelta ≤ sharesHeld accHold t.identifier)
    ∧ DollarsOk t
    ∧ t.capitalGain
        = (if t.action = Action.SELL then (t.price - t.averageCost) * t.sharesDelta else 0) := by
  simp only [synthOne] at h
  split at h
  · exact absurd h (by simp)
  split at h
  · split at h
    · exact absurd h (by simp)
    rename_i hsh
    have ht := Option.some.inj h
    subst ht
    refine ⟨rfl, rfl, rfl, rfl, rfl, rfl, lt_of_not_le hsh, ?_, rfl, rfl⟩
    intro hact
    exact Action.noConfusion hact
  · split at h
    · exact absurd h (by simp)
    rename_i hsh
    have ht := Option.some.inj h
    subst ht
    refine ⟨rfl, rfl, rfl, rfl, rfl, rfl, lt_of_not_le hsh, ?_, rfl, rfl⟩
    intro _
    exact min_le_right _ _

theorem mem_flatMap_perAccount {catalog : String → String × ℚ} {minTrade : ℚ}
    {w : List (String × ℚ)} {hs : List Holding} {t : Transaction}
    (h : t ∈ (accountsOf hs).flatMap (perAccountTxs catalog minTrade w hs)) :
    ∃ a ∈ accountsOf hs, ∃ sd ∈ sleeveDeltas w (accountHoldings hs a),
      synthOne catalog minTrade a (accountTaxStatus (accountHoldings hs a))
        (accountHoldings hs a) sd = some t := by
  rw [List.mem_flatMap] at h
  obtain ⟨a, ha, ht⟩ := h
  unfold perAccountTxs at ht
  rw [List.mem_filterMap] at ht
  obtain ⟨sd, hsd, hsome⟩ := ht
  exact ⟨a, ha, sd, hsd, hsome⟩

/-! ### C3: capital-gain accounting -/

/-- C3: every transaction the engine emits has capital gain 0 on BUY and
`(price - pre-trade average cost) * shares_delta` on SELL; a nonzero
capital gain only occurs on a SELL row. -/
theorem capital_gain_rule (catalog : String → String × ℚ) (minTrade : ℚ)
    (table : List (ℤ × List (String × ℚ))) (band : ℤ) (hs : List Holding)
    (cashTol : ℚ) (r : EngineResult)
    (hok : runEngine catalog minTrade table band hs cashTol = .ok r) :
    ∀ t ∈ r.tx,
      (t.action = Action.BUY → t.capitalGain = 0)
      ∧ (t.action = Action.SELL →
          t.capitalGain = (t.price - t.averageCost) * t.sharesDelta)
      ∧ (t.capitalGain ≠ 0 → t.action = Action.SELL) := by
  obtain ⟨w, hres, rfl⟩ := runEngine_ok hok
  intro t ht
  rw [buildTrades_tx] at ht
  have ht' := (List.perm_insertionSort txLe _).mem_iff.mp ht
  obtain ⟨a, _, sd, _, hsome⟩ := mem_flatMap_perAccount ht'
  have hgain := (synthOne_some hsome).2.2.2.2.2.2.2.2.2
  refine ⟨fun hb => ?_, fun hsell => ?_, fun hne => ?_⟩
  · rw [hgain, hb]
    simp
  · rw [hgain, if_pos hsell]
  · by_contra hnot
    cases hact : t.action with
    | BUY =>
        rw [hgain, hact] at hne
        simp at hne
    | SELL => exact hnot hact

/-- Witness for C3: the example SELL row realizes
`(2 - 1) * 2 = 2` of capital gain. -/
theorem capital_gain_rule_witness :
    exSellTx ∈ (buildTradesAndAfterholdings exCatalog 0 exHoldings
        [("EQ", 1/2), ("BD", 1/2)] (1/2)).tx
    ∧ exSellTx.capitalGain = (exSellTx.price - exSellTx.averageCost) * exSellTx.sharesDelta :=
  ⟨by with_unfolding_all decide,
   (capital_gain_rule exCatalog 0 exTable 8 exHoldings (1/2)
      (buildTradesAndAfterholdings exCatalog 0 exHoldings [("EQ", 1/2), ("BD", 1/2)] (1/2))
      (by with_unfolding_all decide) exSellTx (by with_unfolding_all decide)).2.1 rfl⟩

/-! ### Cash-flow lemmas -/

theorem roundShares_nonneg {q : ℚ} (hq : 0 ≤ q) : 0 ≤ roundShares q := by
  unfold roundShares
  have h0 : (0:ℤ) ≤ ⌊q + 1/2⌋ := by
    rw [Int.le_floor]
    push_cast
    linarith
  exact_mod_cast h0

theorem sharesHeld_nonneg {hs : List Holding} {a i : String}
    (hsh : ∀ h ∈ hs, 0 ≤ h.shares) :
    0 ≤ sharesHeld (accountHoldings hs a) i := by
  unfold sharesHeld
  apply List.sum_nonneg
  intro x hx
  rw [List.mem_map] at hx
  obtain ⟨h0, hh0, rfl⟩ := hx
  have h1 : h0 ∈ accountHoldings hs a := (List.mem_filter.mp hh0).1
  exact hsh h0 (List.mem_filter.mp h1).1

theorem sleeveDeltas_cases {w : List (String × ℚ)} {accHold : List Holding}
    {sd : String × ℚ} (h : sd ∈ sleeveDeltas w accHold) :
    (∃ sw ∈ w, sw.1 = sd.1) ∨ ∃ h0 ∈ accHold, h0.sleeve = sd.1 := by
  unfold sleeveDeltas at h
  rw [List.mem_append] at h
  rcases h with h | h
  · rw [List.mem_map] at h
    obtain ⟨sw, hsw, heq⟩ := h
    exact Or.inl ⟨sw, hsw, by rw [← heq]⟩
  · rw [List.mem_map] at h
    obtain ⟨s, hsmem, heq⟩ := h
    have hs' : s ∈ heldSleeves accHold := (List.mem_filter.mp hsmem).1
    unfold heldSleeves at hs'
    obtain ⟨h0, hh0, hsleeve⟩ := List.mem_map.mp (List.mem_dedup.mp hs')
    exact Or.inr ⟨h0, hh0, by rw [hsleeve, ← heq]⟩

theorem sleeveInstrument_price_pos {hs : List Holding} {catalog : String → String × ℚ}
    {w : List (String × ℚ)} {a : String} {sd : String × ℚ}
    (hwf : WellFormedData hs catalog w)
    (hmem : sd ∈ sleeveDeltas w (accountHoldings hs a)) :
    0 < (sleeveInstrument catalog (accountHoldings hs a) sd.1).2.1 := by
  unfold sleeveInstrument
  cases hfind : (accountHoldings hs a).find? (fun h => h.sleeve == sd.1) with
  | some h0 =>
      have hmem0 : h0 ∈ accountHoldings hs a := List.mem_of_find?_eq_some hfind
      exact (hwf.2.1 h0 (List.mem_filter.mp hmem0).1).2
  | none =>
      rcases sleeveDeltas_cases hmem with ⟨sw, hsw, heq⟩ | ⟨h0, hh0, hsl⟩
      · have hp := hwf.2.2.2.2.1 sw hsw
        rw [heq] at hp
        exact hp
      · have := List.find?_eq_none.mp hfind h0 hh0
        simp [hsl] at this

theorem synth_cash_identity {catalog : String → String × ℚ} {minTrade : ℚ}
    {a taxS : String} {accHold : List Holding} {sd : String × ℚ}
    (hp : 0 < (sleeveInstrument catalog accHold sd.1).2.1)
    (hheld : 0 ≤ sharesHeld accHold (sleeveInstrument catalog accHold sd.1).1) :
    (synthOne catalog minTrade a taxS accHold sd).elim 0 txCash
      = preClampCashOne catalog minTrade accHold sd
        - clampShortfallOne catalog minTrade accHold sd := by
  have hq : (0:ℚ) ≤ |sd.2| / (sleeveInstrument catalog accHold sd.1).2.1 :=
    div_nonneg (abs_nonneg _) hp.le
  have hr := roundShares_nonneg hq
  by_cases h1 : |sd.2| < minTrade
  · simp [synthOne, preClampCashOne, clampShortfallOne, h1]
  by_cases h2 : 0 < sd.2
  · by_cases h3 : roundShares (|sd.2| / (sleeveInstrument catalog accHold sd.1).2.1) ≤ 0
    · have h0 : roundShares (|sd.2| / (sleeveInstrument catalog accHold sd.1).2.1) = 0 :=
        le_antisymm h3 hr
      simp only [synthOne, preClampCashOne, clampShortfallOne, if_neg h1, if_pos h2,
        if_pos h3, h0]
      simp
    · simp only [synthOne, preClampCashOne, clampShortfallOne, if_neg h1, if_pos h2,
        if_neg h3, Option.elim, txCash]
      ring
  · by_cases h3 : min (roundShares (|sd.2| / (sleeveInstrument catalog accHold sd.1).2.1))
        (sharesHeld accHold (sleeveInstrument catalog accHold sd.1).1) ≤ 0
    · have h0 : min (roundShares (|sd.2| / (sleeveInstrument catalog accHold sd.1).2.1))
          (sharesHeld accHold (sleeveInstrument catalog accHold sd.1).1) = 0 :=
        le_antisymm h3 (le_min hr hheld)
      simp only [synthOne, preClampCashOne, clampShortfallOne, if_neg h1, if_neg h2,
        if_pos h3, h0]
      simp
    · simp only [synthOne, preClampCashOne, clampShortfallOne, if_neg h1, if_neg h2,
        if_neg h3, Option.elim, txCash]
      ring

theorem sum_map_filterMap {α β : Type} (f : α → Option β) (g : β → ℚ) (l : List α) :
    ((l.filterMap f).map g).sum
      = (l.map (fun x => (f x).elim 0 g)).sum := by
  induction l with
  | nil => rfl
  | cons x xs ih =>
      cases hfx : f x with
      | none => simp [List.filterMap_cons, hfx, ih]
      | some y => simp [List.filterMap_cons, hfx, ih]

theorem sum_map_sub {α : Type} (f g : α → ℚ) (l : List α) :
    (l.map (fun x => f x - g x)).sum = (l.map f).sum - (l.map g).sum := by
  induction l with
  | nil => simp
  | cons x xs ih =>
      simp only [List.map_cons, List.sum_cons, ih]
      ring

theorem perAccountTxs_account (catalog : String → String × ℚ) (minTrade : ℚ)
    (w : List (String × ℚ)) (hs : List Holding) (a : String) :
    ∀ t ∈ perAccountTxs catalog minTrade w hs a, t.account = a := by
  intro t ht
  unfold perAccountTxs at ht
  rw [List.mem_filterMap] at ht
  obtain ⟨sd, _, hsome⟩ := ht
  exact (synthOne_some hsome).1

theorem filter_flatMap_account {l : List String} (hnd : l.Nodup) {a : String} (ha : a ∈ l)
    (f : String → List Transaction) (hf : ∀ b ∈ l, ∀ t ∈ f b, t.account = b) :
    (l.flatMap f).filter (fun t => t.account == a) = f a := by
  induction l with
  | nil => cases ha
  | cons b l ih =>
      rw [List.flatMap_cons, List.filter_append]
      have hnd' := List.nodup_cons.mp hnd
      rcases List.mem_cons.mp ha with rfl | ha'
      · have h1 : (f a).filter (fun t => t.account == a) = f a :=
          List.filter_eq_self.mpr
            (fun t ht => by simp [hf a (List.mem_cons_self a l) t ht])
        have h2 : (l.flatMap f).filter (fun t => t.account == a) = [] := by
          rw [List.filter_eq_nil_iff]
          intro t ht
          rw [List.mem_flatMap] at ht
          obtain ⟨c, hc, htc⟩ := ht
          have hca : t.account = c := hf c (List.mem_cons_of_mem _ hc) t htc
          have : c ≠ a := fun hh => hnd'.1 (hh ▸ hc)
          simp [hca, this]
        rw [h1, h2, List.append_nil]
      · have hba : b ≠ a := fun hh => hnd'.1 (hh ▸ ha')
        have h1 : (f b).filter (fun t => t.account == a) = [] := by
          rw [List.filter_eq_nil_iff]
          intro t ht
          simp [hf b (List.mem_cons_self b l) t ht, hba]
        rw [h1, List.nil_append]
        exact ih hnd'.2 ha' (fun c hc => hf c (List.mem_cons_of_mem _ hc))

theorem filter_flatMap_account_not_mem {l : List String} {a : String} (ha : a ∉ l)
    (f : String → List Transaction) (hf : ∀ b ∈ l, ∀ t ∈ f b, t.account = b) :
    (l.flatMap f).filter (fun t => t.account == a) = [] := by
  rw [List.filter_eq_nil_iff]
  intro t ht
  rw [List.mem_flatMap] at ht
  obtain ⟨c, hc, htc⟩ := ht
  have hca : t.account = c := hf c hc t htc
  have : c ≠ a := fun hh => ha (hh ▸ hc)
  simp [hca, this]

theorem netCashFlow_perm {txs txs' : List Transaction} (hp : txs.Perm txs') (a : String) :
    netCashFlow txs a = netCashFlow txs' a :=
  List.Perm.sum_eq (List.Perm.map txCash (List.Perm.filter _ hp))

theorem netCashFlow_raw {catalog : String → String × ℚ} {minTrade : ℚ}
    {w : List (String × ℚ)} {hs : List Holding} {a : String}
    (hwf : WellFormedData hs catalog w) (ha : a ∈ accountsOf hs) :
    netCashFlow ((accountsOf hs).flatMap (perAccountTxs catalog minTrade w hs)) a
      = preClampCash catalog minTrade w hs a - clampShortfall catalog minTrade w hs a := by
  unfold netCashFlow
  have hnd : (accountsOf hs).Nodup := by
    unfold accountsOf
    exact List.nodup_dedup _
  rw [filter_flatMap_account hnd ha _
    (fun b _ => perAccountTxs_account catalog minTrade w hs b)]
  unfold perAccountTxs preClampCash clampShortfall
  rw [sum_map_filterMap, ← sum_map_sub]
  apply congrArg List.sum
  apply List.map_congr_left
  intro sd hsd
  exact synth_cash_identity (sleeveInstrument_price_pos hwf hsd)
    (sharesHeld_nonneg (fun h hh => (hwf.2.1 h hh).1))

theorem reconcile_mem {accounts : List String} {txs : List Transaction} {tol : ℚ}
    {a : String} (ha : a ∈ accounts) (hgt : tol < |netCashFlow txs a|) :
    (a, netCashFlow txs a) ∈ reconcile accounts txs tol := by
  unfold reconcile
  rw [List.mem_filterMap]
  exact ⟨a, ha, by rw [if_pos hgt]⟩

/-! ### C2: SELL clamping -/

/-- C2: every SELL the engine emits is bounded by the pre-trade shares
held for that identifier in that account (no naked short sales); an
oversized SELL never aborts the run; and the clamped shortfall is folded
into the account's net cash flow, which the Reconciler surfaces as the
residual when beyond tolerance, never dropping it. -/
theorem sell_clamped_no_naked_shorts (catalog : String → String × ℚ) (minTrade : ℚ)
    (table : List (ℤ × List (String × ℚ))) (band : ℤ) (hs : List Holding)
    (cashTol : ℚ) (w : List (String × ℚ))
    (hwf : WellFormedData hs catalog w)
    (hres : resolveTargets table band = .ok w) :
    runEngine catalog minTrade table band hs cashTol
        = .ok (buildTradesAndAfterholdings catalog minTrade hs w cashTol)
    ∧ (∀ t ∈ (buildTradesAndAfterholdings catalog minTrade hs w cashTol).tx,
        t.action = Action.SELL →
          t.sharesDelta ≤ heldShares hs t.account t.identifier)
    ∧ (∀ a ∈ accountsOf hs,
        netCashFlow (buildTradesAndAfterholdings catalog minTrade hs w cashTol).tx a
          = preClampCash catalog minTrade w hs a - clampShortfall catalog minTrade w hs a)
    ∧ (∀ a ∈ accountsOf hs,
        cashTol < |netCashFlow (buildTradesAndAfterholdings catalog minTrade hs w cashTol).tx a| →
          (a, netCashFlow (buildTradesAndAfterholdings catalog minTrade hs w cashTol).tx a)
            ∈ (buildTradesAndAfterholdings catalog minTrade hs w cashTol).residuals) := by
  have hperm : ((buildTradesAndAfterholdings catalog minTrade hs w cashTol).tx).Perm
      ((accountsOf hs).flatMap (perAccountTxs catalog minTrade w hs)) := by
    rw [buildTrades_tx]
    exact List.perm_insertionSort txLe _
  refine ⟨?_, ?_, ?_, ?_⟩
  · unfold runEngine
    rw [hres]
    rfl
  · intro t ht hsell
    have ht' := hperm.mem_iff.mp ht
    obtain ⟨a, _, sd, _, hsome⟩ := mem_flatMap_perAccount ht'
    have hspec := synthOne_some hsome
    have hbound := hspec.2.2.2.2.2.2.2.1 hsell
    unfold heldShares
    rw [hspec.1]
    exact hbound
  · intro a ha
    rw [netCashFlow_perm hperm a]
    exact netCashFlow_raw hwf ha
  · intro a ha hgt
    rw [netCashFlow_perm hperm a] at hgt ⊢
    rw [buildTrades_residuals]
    exact reconcile_mem ha hgt

/-- Witness for C2 on the example portfolio: the emitted SELL of 2
shares is within the 4 shares held. -/
theorem sell_clamped_no_naked_shorts_witness :
    WellFormedData exHoldings exCatalog [("EQ", 1/2), ("BD", 1/2)]
    ∧ resolveTargets exTable 8 = .ok [("EQ", 1/2), ("BD", 1/2)]
    ∧ exSellTx ∈ (buildTradesAndAfterholdings exCatalog 0 exHoldings
        [("EQ", 1/2), ("BD", 1/2)] (1/2)).tx
    ∧ exSellTx.sharesDelta ≤ heldShares exHoldings exSellTx.account exSellTx.identifier :=
  ⟨by with_unfolding_all decide, by with_unfolding_all decide,
   by with_unfolding_all decide,
   (sell_clamped_no_naked_shorts exCatalog 0 exTable 8 exHoldings (1/2)
      [("EQ", 1/2), ("BD", 1/2)] (by with_unfolding_all decide)
      (by with_unfolding_all decide)).2.1 exSellTx
      (by with_unfolding_all decide) rfl⟩

/-! ### Market-value bookkeeping of the Holdings Projector -/

theorem mvForAccount_nil (a : String) : mvForAccount [] a = 0 := rfl

theorem mvForAccount_cons (h : Holding) (l : List Holding) (a : String) :
    mvForAccount (h :: l) a
      = (if h.account = a then h.shares * h.price else 0) + mvForAccount l a := by
  unfold mvForAccount accountHoldings marketValue
  by_cases hh : h.account = a
  · simp [List.filter_cons, hh]
  · simp [List.filter_cons, hh]

theorem mvForAccount_filter_nonzero (l : List Holding) (a : String) :
    mvForAccount (l.filter (fun h => !(h.shares == 0))) a = mvForAccount l a := by
  induction l with
  | nil => rfl
  | cons h l ih =>
      rw [List.filter_cons, mvForAccount_cons]
      by_cases hz : h.shares = 0
      · simp [hz, ih]
      · rw [if_pos (show (!(h.shares == 0)) = true by simp [hz]), mvForAccount_cons, ih]

theorem applyHolding_account (h : Holding) (t : Transaction) :
    (applyHolding h t).account = h.account := by
  unfold applyHolding
  cases t.action <;> rfl

theorem applyHolding_identifier (h : Holding) (t : Transaction) :
    (applyHolding h t).identifier = h.identifier := by
  unfold applyHolding
  cases t.action <;> rfl

theorem applyHolding_price (h : Holding) (t : Transaction) :
    (applyHolding h t).price = h.price := by
  unfold applyHolding
  cases t.action <;> rfl

theorem applyHolding_shares_buy (h : Holding) (t : Transaction)
    (hta : t.action = Action.BUY) :
    (applyHolding h t).shares = h.shares + t.sharesDelta := by
  unfold applyHolding
  rw [hta]

theorem applyHolding_shares_sell (h : Holding) (t : Transaction)
    (hta : t.action = Action.SELL) :
    (applyHolding h t).shares = h.shares - t.sharesDelta := by
  unfold applyHolding
  rw [hta]

theorem mvDelta_some {hs : List Holding} {t : Transaction} {h : Holding}
    (hfind : firstIdMatch hs t.account t.identifier = some h) :
    mvDelta hs t
      = if t.action = Action.BUY then t.sharesDelta * h.price
        else -(t.sharesDelta * h.price) := by
  unfold mvDelta
  rw [hfind]

theorem mvDelta_none {hs : List Holding} {t : Transaction}
    (hfind : firstIdMatch hs t.account t.identifier = none) :
    mvDelta hs t
      = if t.action = Action.BUY then t.sharesDelta * t.price else 0 := by
  unfold mvDelta
  rw [hfind]

theorem applyTx_mv (hs : List Holding) (t : Transaction) (b : String) :
    mvForAccount (applyTx hs t) b
      = mvForAccount hs b + (if t.account = b then mvDelta hs t else 0) := by
  induction hs with
  | nil =>
      unfold applyTx mvDelta firstIdMatch
      cases t.action with
      | BUY =>
          rw [List.find?_nil, mvForAccount_cons]
          unfold newHolding
          by_cases hb : t.account = b <;> simp [hb, mvForAccount_nil]
      | SELL =>
          rw [List.find?_nil]
          by_cases hb : t.account = b <;> simp [hb, mvForAccount_nil]
  | cons h hs ih =>
      unfold applyTx
      by_cases hm : (h.account == t.account && h.identifier == t.identifier) = true
      · rw [if_pos hm, mvForAccount_cons, mvForAccount_cons]
        obtain ⟨hacc, hid⟩ : h.account = t.account ∧ h.identifier = t.identifier := by
          simpa [Bool.and_eq_true, beq_iff_eq] using hm
        have hfind : firstIdMatch (h :: hs) t.account t.identifier = some h := by
          unfold firstIdMatch
          exact List.find?_cons_of_pos _ hm
        rw [mvDelta_some hfind, applyHolding_account, applyHolding_price, hacc]
        cases hta : t.action with
        | BUY =>
            rw [applyHolding_shares_buy h t hta]
            by_cases hb : t.account = b
            · rw [if_pos hb, if_pos hb, if_pos hb,
                if_pos (show Action.BUY = Action.BUY from rfl)]
              ring
            · rw [if_neg hb, if_neg hb, if_neg hb]
              ring
        | SELL =>
            rw [applyHolding_shares_sell h t hta]
            by_cases hb : t.account = b
            · rw [if_pos hb, if_pos hb, if_pos hb,
                if_neg (show Action.SELL ≠ Action.BUY from fun hh => Action.noConfusion hh)]
              ring
            · rw [if_neg hb, if_neg hb, if_neg hb]
              ring
      · rw [if_neg hm, mvForAccount_cons, mvForAccount_cons, ih]
        have hfind : firstIdMatch (h :: hs) t.account t.identifier
            = firstIdMatch hs t.account t.identifier := by
          unfold firstIdMatch
          exact List.find?_cons_of_neg _ hm
        unfold mvDelta
        rw [hfind]
        ring

theorem firstIdMatch_applyTx (hs : List Holding) (t : Transaction) {a i : String}
    (hne : ¬(t.account = a ∧ t.identifier = i)) :
    firstIdMatch (applyTx hs t) a i = firstIdMatch hs a i := by
  induction hs with
  | nil =>
      unfold applyTx
      cases t.action with
      | BUY =>
          unfold firstIdMatch
          have e1 : List.find? (fun x => x.account == a && x.identifier == i) [newHolding t]
              = List.find? (fun x => x.account == a && x.identifier == i) [] :=
            List.find?_cons_of_neg _ (by
              unfold newHolding
              simp only [Bool.and_eq_true, beq_iff_eq, not_and]
              intro h1 h2
              exact hne ⟨h1, h2⟩)
          rw [e1]
      | SELL => rfl
  | cons h hs ih =>
      unfold applyTx
      by_cases hm : (h.account == t.account && h.identifier == t.identifier) = true
      · rw [if_pos hm]
        obtain ⟨m1, m2⟩ : h.account = t.account ∧ h.identifier = t.identifier := by
          simpa [Bool.and_eq_true, beq_iff_eq] using hm
        have hnm : ¬((h.account == a && h.identifier == i) = true) := by
          simp only [Bool.and_eq_true, beq_iff_eq, not_and]
          intro h1 h2
          exact hne ⟨m1.symm.trans h1, m2.symm.trans h2⟩
        unfold firstIdMatch
        have e1 : List.find? (fun x => x.account == a && x.identifier == i)
              (applyHolding h t :: hs)
            = List.find? (fun x => x.account == a && x.identifier == i) hs :=
          List.find?_cons_of_neg _ (by
            rw [applyHolding_account, applyHolding_identifier]
            exact hnm)
        have e2 : List.find? (fun x => x.account == a && x.identifier == i) (h :: hs)
            = List.find? (fun x => x.account == a && x.identifier == i) hs :=
          List.find?_cons_of_neg _ hnm
        rw [e1, e2]
      · rw [if_neg hm]
        unfold firstIdMatch at ih ⊢
        by_cases hp : (h.account == a && h.identifier == i) = true
        · have e1 : List.find? (fun x => x.account == a && x.identifier == i)
                (h :: applyTx hs t) = some h := List.find?_cons_of_pos _ hp
          have e2 : List.find? (fun x => x.account == a && x.identifier == i) (h :: hs)
              = some h := List.find?_cons_of_pos _ hp
          rw [e1, e2]
        · have e1 : List.find? (fun x => x.account == a && x.identifier == i)
                (h :: applyTx hs t)
              = List.find? (fun x => x.account == a && x.identifier == i) (applyTx hs t) :=
            List.find?_cons_of_neg _ hp
          have e2 : List.find? (fun x => x.account == a && x.identifier == i) (h :: hs)
              = List.find? (fun x => x.account == a && x.identifier == i) hs :=
            List.find?_cons_of_neg _ hp
          rw [e1, e2]
          exact ih

theorem mvDelta_eq_deltaDollars {hs : List Holding} {t : Transaction}
    (hgood : GoodTx hs t) (hdol : DollarsOk t) : mvDelta hs t = t.deltaDollars := by
  unfold GoodTx at hgood
  unfold DollarsOk at hdol
  unfold mvDelta
  rw [hdol]
  cases hfind : firstIdMatch hs t.account t.identifier with
  | some h =>
      rw [hfind] at hgood
      have hp : h.price = t.price := by simpa using hgood
      show (if t.action = Action.BUY then t.sharesDelta * h.price
          else -(t.sharesDelta * h.price)) = _
      rw [hp]
      cases hta : t.action with
      | BUY => simp [mul_comm]
      | SELL =>
          rw [if_neg (show Action.SELL ≠ Action.BUY from fun hh => Action.noConfusion hh),
            if_neg (show Action.SELL ≠ Action.BUY from fun hh => Action.noConfusion hh)]
          ring
  | none =>
      rw [hfind] at hgood
      show (if t.action = Action.BUY then t.sharesDelta * t.price else 0) = _
      rw [hgood]
      simp [mul_comm]

theorem foldl_applyTx_mv (txs : List Transaction) (hs : List Holding) (b : String)
    (hgood : ∀ t ∈ txs, GoodTx hs t ∧ DollarsOk t)
    (hkeys : txs.Pairwise KeyDistinct) :
    mvForAccount (txs.foldl applyTx hs) b
      = mvForAccount hs b
        + ((txs.filter (fun t => t.account == b)).map (·.deltaDollars)).sum := by
  induction txs generalizing hs with
  | nil => simp
  | cons t txs ih =>
      rw [List.foldl_cons]
      have hpair := List.pairwise_cons.mp hkeys
      have hgood' : ∀ u ∈ txs, GoodTx (applyTx hs t) u ∧ DollarsOk u := by
        intro u hu
        refine ⟨?_, (hgood u (List.mem_cons_of_mem _ hu)).2⟩
        have hg := (hgood u (List.mem_cons_of_mem _ hu)).1
        unfold GoodTx at hg ⊢
        rw [firstIdMatch_applyTx hs t (hpair.1 u hu)]
        exact hg
      rw [ih (applyTx hs t) hgood' hpair.2, applyTx_mv, List.filter_cons]
      have hgt := hgood t (List.mem_cons_self t txs)
      by_cases hb : t.account = b
      · rw [if_pos hb]
        simp only [hb, beq_self_eq_true, if_true, List.map_cons, List.sum_cons]
        rw [mvDelta_eq_deltaDollars hgt.1 hgt.2]
        ring
      · rw [if_neg hb]
        simp only [beq_iff_eq, hb, if_false]
        ring

/-! ### The engine's transactions apply cleanly to the opening holdings -/

theorem sleeve_in_weights_of_none {w : List (String × ℚ)} {accHold : List Holding}
    {sd : String × ℚ} (hsd : sd ∈ sleeveDeltas w accHold)
    (hfind : accHold.find? (fun h => h.sleeve == sd.1) = none) :
    ∃ sw ∈ w, sw.1 = sd.1 := by
  rcases sleeveDeltas_cases hsd with h | ⟨h0, hh0, hsl⟩
  · exact h
  · have := List.find?_eq_none.mp hfind h0 hh0
    simp [hsl] at this

theorem goodTx_of_raw {catalog : String → String × ℚ} (minTrade : ℚ)
    {w : List (String × ℚ)} {hs : List Holding}
    (hwf : WellFormedData hs catalog w) :
    ∀ t ∈ (accountsOf hs).flatMap (perAccountTxs catalog minTrade w hs),
      GoodTx hs t ∧ DollarsOk t := by
  intro t ht
  obtain ⟨a, _, sd, hsd, hsome⟩ := mem_flatMap_perAccount ht
  have hspec := synthOne_some hsome
  refine ⟨?_, hspec.2.2.2.2.2.2.2.2.1⟩
  unfold GoodTx
  have hacc : t.account = a := hspec.1
  have hid : t.identifier = (sleeveInstrument catalog (accountHoldings hs a) sd.1).1 :=
    hspec.2.2.2.1
  have hpr : t.price = (sleeveInstrument catalog (accountHoldings hs a) sd.1).2.1 :=
    hspec.2.2.2.2.1
  cases hfind : (accountHoldings hs a).find? (fun h => h.sleeve == sd.1) with
  | some h0 =>
      have hsi : sleeveInstrument catalog (accountHoldings hs a) sd.1
          = (h0.identifier, h0.price, h0.averageCost) := by
        unfold sleeveInstrument
        rw [hfind]
      rw [hsi] at hid hpr
      have hh0mem : h0 ∈ accountHoldings hs a := List.mem_of_find?_eq_some hfind
      have hh0hs : h0 ∈ hs := (List.mem_filter.mp hh0mem).1
      have hh0acc : h0.account = a := by
        have := (List.mem_filter.mp hh0mem).2
        simpa [beq_iff_eq] using this
      cases hfm : firstIdMatch hs t.account t.identifier with
      | none =>
          exfalso
          have hnone := List.find?_eq_none.mp hfm h0 hh0hs
          apply hnone
          simp [beq_iff_eq, hh0acc, hacc, hid]
      | some h' =>
          have h'mem : h' ∈ hs := List.mem_of_find?_eq_some hfm
          have h'pred := List.find?_some hfm
          obtain ⟨h'acc, h'id⟩ : h'.account = t.account ∧ h'.identifier = t.identifier := by
            simpa [Bool.and_eq_true, beq_iff_eq] using h'pred
          have hdet := hwf.1 h' h'mem h0 hh0hs
            (by rw [h'acc, hacc, hh0acc]) (by rw [h'id, hid])
          exact hdet.2.trans hpr.symm
  | none =>
      have hsi : sleeveInstrument catalog (accountHoldings hs a) sd.1
          = ((catalog sd.1).1, (catalog sd.1).2, 0) := by
        unfold sleeveInstrument
        rw [hfind]
      rw [hsi] at hid hpr
      obtain ⟨sw, hswmem, hsw1⟩ := sleeve_in_weights_of_none hsd hfind
      have hfresh := hwf.2.2.1 sw hswmem
      rw [hsw1] at hfresh
      have hfm : firstIdMatch hs t.account t.identifier = none := by
        unfold firstIdMatch
        rw [List.find?_eq_none]
        intro h hmem
        simp only [Bool.and_eq_true, beq_iff_eq, not_and]
        intro _
        rw [hid]
        exact fun hh => hfresh h hmem hh.symm
      rw [hfm]
      cases hta : t.action with
      | BUY => rfl
      | SELL =>
          exfalso
          have hbound := hspec.2.2.2.2.2.2.2.1 hta
          have hpos := hspec.2.2.2.2.2.2.1
          have hzero : sharesHeld (accountHoldings hs a) t.identifier = 0 := by
            unfold sharesHeld
            have hemp : (accountHoldings hs a).filter
                (fun h => h.identifier == t.identifier) = [] := by
              rw [List.filter_eq_nil_iff]
              intro h hmem
              have hh : h ∈ hs := (List.mem_filter.mp hmem).1
              simp only [beq_iff_eq]
              rw [hid]
              exact fun hh2 => hfresh h hh hh2.symm
            rw [hemp]
            rfl
          rw [hzero] at hbound
          exact absurd (lt_of_lt_of_le hpos hbound) (lt_irrefl 0)

theorem sleeveInstrument_id_inj {hs : List Holding} {catalog : String → String × ℚ}
    {w : List (String × ℚ)} {a : String} (hwf : WellFormedData hs catalog w)
    {sd1 sd2 : String × ℚ}
    (h1 : sd1 ∈ sleeveDeltas w (accountHoldings hs a))
    (h2 : sd2 ∈ sleeveDeltas w (accountHoldings hs a))
    (hne : sd1.1 ≠ sd2.1) :
    (sleeveInstrument catalog (accountHoldings hs a) sd1.1).1
      ≠ (sleeveInstrument catalog (accountHoldings hs a) sd2.1).1 := by
  have haccmem : ∀ g : Holding, g ∈ accountHoldings hs a → g ∈ hs ∧ g.account = a := by
    intro g hg
    refine ⟨(List.mem_filter.mp hg).1, ?_⟩
    have := (List.mem_filter.mp hg).2
    simpa [beq_iff_eq] using this
  unfold sleeveInstrument
  cases hf1 : (accountHoldings hs a).find? (fun h => h.sleeve == sd1.1) with
  | some g1 =>
      have hg1 := haccmem g1 (List.mem_of_find?_eq_some hf1)
      have hsl1 : g1.sleeve = sd1.1 := by
        simpa [beq_iff_eq] using List.find?_some hf1
      cases hf2 : (accountHoldings hs a).find? (fun h => h.sleeve == sd2.1) with
      | some g2 =>
          have hg2 := haccmem g2 (List.mem_of_find?_eq_some hf2)
          have hsl2 : g2.sleeve = sd2.1 := by
            simpa [beq_iff_eq] using List.find?_some hf2
          intro heq
          have hdet := hwf.1 g1 hg1.1 g2 hg2.1 (hg1.2.trans hg2.2.symm) heq
          exact hne ((hsl1.symm.trans hdet.1).trans hsl2)
      | none =>
          obtain ⟨sw2, hsw2, hsw2eq⟩ := sleeve_in_weights_of_none h2 hf2
          have hfresh := hwf.2.2.1 sw2 hsw2
          rw [hsw2eq] at hfresh
          intro heq
          exact hfresh g1 hg1.1 heq.symm
  | none =>
      obtain ⟨sw1, hsw1, hsw1eq⟩ := sleeve_in_weights_of_none h1 hf1
      have hfresh1 := hwf.2.2.1 sw1 hsw1
      rw [hsw1eq] at hfresh1
      cases hf2 : (accountHoldings hs a).find? (fun h => h.sleeve == sd2.1) with
      | some g2 =>
          have hg2 := haccmem g2 (List.mem_of_find?_eq_some hf2)
          intro heq
          exact hfresh1 g2 hg2.1 heq
      | none =>
          obtain ⟨sw2, hsw2, hsw2eq⟩ := sleeve_in_weights_of_none h2 hf2
          have hinj := hwf.2.2.2.1 sw1 hsw1 sw2 hsw2
            (by rw [hsw1eq, hsw2eq]; exact hne)
          rw [hsw1eq, hsw2eq] at hinj
          exact hinj

theorem sleeveDeltas_sleeve_pairwise {w : List (String × ℚ)} (accHold : List Holding)
    (hq : (w.map (·.1)).Nodup) :
    (sleeveDeltas w accHold).Pairwise (fun sd1 sd2 => sd1.1 ≠ sd2.1) := by
  unfold sleeveDeltas
  rw [List.pairwise_append]
  refine ⟨?_, ?_, ?_⟩
  · rw [List.pairwise_map]
    have hw : w.Pairwise (fun sw1 sw2 => sw1.1 ≠ sw2.1) := List.pairwise_map.mp hq
    exact hw.imp (fun hne => hne)
  · rw [List.pairwise_map]
    have hnd : (heldSleeves accHold).Nodup := by
      unfold heldSleeves
      exact List.nodup_dedup _
    exact (hnd.filter _).imp (fun hne => hne)
  · intro x hx y hy
    rw [List.mem_map] at hx hy
    obtain ⟨sw, hswmem, rfl⟩ := hx
    obtain ⟨s, hsmem, rfl⟩ := hy
    have hno := (List.mem_filter.mp hsmem).2
    simp only [Bool.not_eq_true', List.any_eq_false, beq_iff_eq] at hno
    intro heq
    exact hno sw hswmem heq

theorem pairwise_keyDistinct_perAccount {catalog : String → String × ℚ} (minTrade : ℚ)
    {w : List (String × ℚ)} {hs : List Holding} (hwf : WellFormedData hs catalog w)
    (a : String) :
    (perAccountTxs catalog minTrade w hs a).Pairwise KeyDistinct := by
  unfold perAccountTxs
  rw [List.pairwise_filterMap]
  have hpair := sleeveDeltas_sleeve_pairwise (accountHoldings hs a) hwf.2.2.2.2.2
  refine List.Pairwise.imp_of_mem ?_ hpair
  intro sd1 sd2 hm1 hm2 hne t1 ht1 t2 ht2
  rw [Option.mem_def] at ht1 ht2
  have hs1 := synthOne_some ht1
  have hs2 := synthOne_some ht2
  rintro ⟨-, hideq⟩
  rw [hs1.2.2.2.1, hs2.2.2.2.1] at hideq
  exact sleeveInstrument_id_inj hwf hm1 hm2 hne hideq

theorem pairwise_keyDistinct_flatMap {l : List String} (hnd : l.Nodup)
    (f : String → List Transaction)
    (hf : ∀ b ∈ l, ∀ t ∈ f b, t.account = b)
    (hin : ∀ b ∈ l, (f b).Pairwise KeyDistinct) :
    (l.flatMap f).Pairwise KeyDistinct := by
  induction l with
  | nil => simp
  | cons b l ih =>
      rw [List.flatMap_cons, List.pairwise_append]
      have hnd' := List.nodup_cons.mp hnd
      refine ⟨hin b (List.mem_cons_self b l), ?_, ?_⟩
      · exact ih hnd'.2 (fun c hc => hf c (List.mem_cons_of_mem _ hc))
          (fun c hc => hin c (List.mem_cons_of_mem _ hc))
      · intro t1 ht1 t2 ht2
        rw [List.mem_flatMap] at ht2
        obtain ⟨c, hc, ht2c⟩ := ht2
        have h1 := hf b (List.mem_cons_self b l) t1 ht1
        have h2 := hf c (List.mem_cons_of_mem _ hc) t2 ht2c
        rintro ⟨haccs, -⟩
        rw [h1, h2] at haccs
        exact hnd'.1 (haccs ▸ hc)

theorem pairwise_keyDistinct_raw {catalog : String → String × ℚ} (minTrade : ℚ)
    {w : List (String × ℚ)} {hs : List Holding} (hwf : WellFormedData hs catalog w) :
    ((accountsOf hs).flatMap (perAccountTxs catalog minTrade w hs)).Pairwise KeyDistinct := by
  have hnd : (accountsOf hs).Nodup := by
    unfold accountsOf
    exact List.nodup_dedup _
  exact pairwise_keyDistinct_flatMap hnd _
    (fun b _ => perAccountTxs_account catalog minTrade w hs b)
    (fun b _ => pairwise_keyDistinct_perAccount minTrade hwf b)

/-! ### Residual lookup -/

theorem reconcile_find {accounts : List String} {txs : List Transaction} {tol : ℚ}
    {a : String} (hnd : accounts.Nodup) :
    (reconcile accounts txs tol).find? (fun e => e.1 == a)
      = if a ∈ accounts ∧ tol < |netCashFlow txs a|
        then some (a, netCashFlow txs a) else none := by
  induction accounts with
  | nil =>
      simp only [reconcile, List.filterMap_nil, List.find?_nil]
      rw [if_neg (fun hc => (List.not_mem_nil a) hc.1)]
  | cons b accounts ih =>
      have hnd' := List.nodup_cons.mp hnd
      unfold reconcile at ih ⊢
      rw [List.filterMap_cons]
      by_cases hgtb : tol < |netCashFlow txs b|
      · rw [if_pos hgtb]
        by_cases hab : b = a
        · subst hab
          rw [List.find?_cons_of_pos _ (by simp)]
          rw [if_pos ⟨List.mem_cons_self b accounts, hgtb⟩]
        · rw [List.find?_cons_of_neg _ (by simp [hab]), ih hnd'.2]
          by_cases hmem : a ∈ accounts ∧ tol < |netCashFlow txs a|
          · rw [if_pos hmem, if_pos ⟨List.mem_cons_of_mem _ hmem.1, hmem.2⟩]
          · rw [if_neg hmem, if_neg (fun hc => hmem
              ⟨(List.mem_cons.mp hc.1).resolve_left (fun hh => hab hh.symm), hc.2⟩)]
      · rw [if_neg hgtb, ih hnd'.2]
        by_cases hmem : a ∈ accounts ∧ tol < |netCashFlow txs a|
        · rw [if_pos hmem, if_pos ⟨List.mem_cons_of_mem _ hmem.1, hmem.2⟩]
        · rw [if_neg hmem, if_neg ?_]
          intro hc
          rcases List.mem_cons.mp hc.1 with rfl | hmem'
          · exact hgtb hc.2
          · exact hmem ⟨hmem', hc.2⟩

theorem residualCash_reconcile {accounts : List String} {txs : List Transaction}
    {tol : ℚ} {a : String} (hnd : accounts.Nodup) :
    residualCash (reconcile accounts txs tol) a
      = if a ∈ accounts ∧ tol < |netCashFlow txs a| then netCashFlow txs a else 0 := by
  unfold residualCash
  rw [reconcile_find hnd]
  by_cases h : a ∈ accounts ∧ tol < |netCashFlow txs a|
  · rw [if_pos h, if_pos h]
  · rw [if_neg h, if_neg h]

theorem txCash_eq_neg_delta {t : Transaction} (hdol : DollarsOk t) :
    txCash t = -t.deltaDollars := by
  unfold DollarsOk at hdol
  unfold txCash
  rw [hdol]
  cases hta : t.action with
  | BUY => simp
  | SELL => simp

theorem sum_map_neg {α : Type} (f : α → ℚ) (l : List α) :
    (l.map (fun x => -f x)).sum = -((l.map f).sum) := by
  induction l with
  | nil => simp
  | cons x xs ih =>
      simp only [List.map_cons, List.sum_cons, ih]
      ring

theorem netCashFlow_eq_neg_sum {txs : List Transaction}
    (hdol : ∀ t ∈ txs, DollarsOk t) (a : String) :
    netCashFlow txs a
      = -(((txs.filter (fun t => t.account == a)).map (·.deltaDollars)).sum) := by
  unfold netCashFlow
  rw [List.map_congr_left
    (fun t ht => txCash_eq_neg_delta (hdol t (List.mem_of_mem_filter ht)))]
  exact sum_map_neg _ _

/-! ### C1: value conservation -/

/-- C1: for every account, the market value of the Holdings-after set
plus that account's residual cash equals the market value of its opening
holdings (its opening equity — the engine interface carries no separate
cash balance), within the cash tolerance. -/
theorem value_conservation (catalog : String → String × ℚ) (minTrade : ℚ)
    (table : List (ℤ × List (String × ℚ))) (band : ℤ) (hs : List Holding)
    (cashTol : ℚ) (w : List (String × ℚ)) (r : EngineResult)
    (hwf : WellFormedData hs catalog w)
    (htol : 0 ≤ cashTol)
    (hres : resolveTargets table band = .ok w)
    (hok : runEngine catalog minTrade table band hs cashTol = .ok r) :
    ∀ a : String,
      |mvForAccount r.after a + residualCash r.residuals a - mvForAccount hs a| ≤ cashTol := by
  obtain ⟨w', hres', hr⟩ := runEngine_ok hok
  rw [hres] at hres'
  have hww : w = w' := by
    have := Except.ok.inj hres'
    exact this
  subst hww
  subst hr
  intro a
  have hgood := goodTx_of_raw minTrade hwf
  have hkeys := pairwise_keyDistinct_raw minTrade hwf
  have hnd : (accountsOf hs).Nodup := by
    unfold accountsOf
    exact List.nodup_dedup _
  rw [buildTrades_after, buildTrades_residuals]
  unfold projectHoldings
  rw [mvForAccount_filter_nonzero, foldl_applyTx_mv _ hs a hgood hkeys,
    residualCash_reconcile hnd,
    show ((((accountsOf hs).flatMap (perAccountTxs catalog minTrade w hs)).filter
        (fun t => t.account == a)).map (·.deltaDollars)).sum
      = -(netCashFlow ((accountsOf hs).flatMap (perAccountTxs catalog minTrade w hs)) a) by
      rw [netCashFlow_eq_neg_sum (fun t ht => (hgood t ht).2) a]
      ring]
  by_cases hcase : a ∈ accountsOf hs
      ∧ cashTol < |netCashFlow ((accountsOf hs).flatMap (perAccountTxs catalog minTrade w hs)) a|
  · rw [if_pos hcase,
      show mvForAccount hs a
          + -(netCashFlow ((accountsOf hs).flatMap (perAccountTxs catalog minTrade w hs)) a)
          + netCashFlow ((accountsOf hs).flatMap (perAccountTxs catalog minTrade w hs)) a
          - mvForAccount hs a = 0 by ring]
    simpa using htol
  · rw [if_neg hcase,
      show mvForAccount hs a
          + -(netCashFlow ((accountsOf hs).flatMap (perAccountTxs catalog minTrade w hs)) a)
          + 0 - mvForAccount hs a
        = -(netCashFlow ((accountsOf hs).flatMap (perAccountTxs catalog minTrade w hs)) a)
        by ring,
      abs_neg]
    by_cases hmem : a ∈ accountsOf hs
    · exact le_of_not_lt (fun hgt => hcase ⟨hmem, hgt⟩)
    · rw [show netCashFlow ((accountsOf hs).flatMap (perAccountTxs catalog minTrade w hs)) a
          = 0 by
        unfold netCashFlow
        rw [filter_flatMap_account_not_mem hmem _
          (fun b _ => perAccountTxs_account catalog minTrade w hs b)]
        rfl]
      simpa using htol

/-- Witness for C1 on the example portfolio: selling 2 X at 2 and buying
4 NBD at 1 conserves the 8 dollars of opening value exactly. -/
theorem value_conservation_witness :
    WellFormedData exHoldings exCatalog [("EQ", 1/2), ("BD", 1/2)]
    ∧ (0:ℚ) ≤ 1/2
    ∧ resolveTargets exTable 8 = .ok [("EQ", 1/2), ("BD", 1/2)]
    ∧ runEngine exCatalog 0 exTable 8 exHoldings (1/2)
        = .ok (buildTradesAndAfterholdings exCatalog 0 exHoldings
            [("EQ", 1/2), ("BD", 1/2)] (1/2))
    ∧ |mvForAccount (buildTradesAndAfterholdings exCatalog 0 exHoldings
          [("EQ", 1/2), ("BD", 1/2)] (1/2)).after "A"
        + residualCash (buildTradesAndAfterholdings exCatalog 0 exHoldings
            [("EQ", 1/2), ("BD", 1/2)] (1/2)).residuals "A"
        - mvForAccount exHoldings "A"| ≤ 1/2 :=
  ⟨by with_unfolding_all decide, by norm_num, by with_unfolding_all decide,
   by with_unfolding_all decide,
   value_conservation exCatalog 0 exTable 8 exHoldings (1/2)
     [("EQ", 1/2), ("BD", 1/2)]
     (buildTradesAndAfterholdings exCatalog 0 exHoldings [("EQ", 1/2), ("BD", 1/2)] (1/2))
     (by with_unfolding_all decide) (by norm_num)
     (by with_unfolding_all decide) (by with_unfolding_all decide) "A"⟩

end PortfolioAnalytics
